import Mathlib

/-!
Verification of the fuzzy-matching scorer and the stable ranker of the
go-alfred library (src/fuzzy.go and src/item.go).

Modelling conventions:
* Go strings are modelled as `List Char` (lists of runes).
* `strings.ToLower` is modelled by mapping `Char.toLower` over the list.
* `strings.IndexRune` is modelled by `indexOf`, returning `none` for Go's -1.
* `float64` arithmetic is modelled exactly over `ℚ`; the literals 0.20 and
  0.5 of the source become 1/5 and 1/2.
* Go's `sort.Stable` with the `byFuzzyScore.Less` comparison
  (`b[i].fuzzyScore > b[j].fuzzyScore`) is modelled by the verified stable
  `List.mergeSort` run with the complementary non-strict relation
  `b.fuzzyScore ≤ a.fuzzyScore`.
-/

namespace GoAlfred

/-- Model of `strings.ToLower` on rune lists. -/
def toLower (s : List Char) : List Char := s.map Char.toLower

/-- Model of `strings.IndexRune`: index of the first occurrence of `c` in
`s`, `none` when absent (Go returns -1). -/
def indexOf (s : List Char) (c : Char) : Option Nat :=
  match s with
  | [] => none
  | x :: xs => if x = c then some 0 else (indexOf xs c).map (· + 1)

/-- The search loop of `fuzzyScore` (src/fuzzy.go lines 36-45): for each
remaining character of the lowered test string, find it in the remaining
suffix of the lowered value (`lval[start:]`), accumulate the separation
(`totalSep += i`) and continue after the match (`start += i + 1`).
Returns the accumulated `totalSep`, or `none` on the Go `return -1` path. -/
def sepLoop (s : List Char) (cs : List Char) : Option Nat :=
  match cs with
  | [] => some 0
  | c :: rest =>
    match indexOf s c with
    | none => none
    | some i => (sepLoop (s.drop (i + 1)) rest).map (fun t => i + t)

/-- Model of `fuzzyScore` (src/fuzzy.go lines 18-56).  An empty test scores
0; otherwise the first character of the lowered test is looked up in the
lowered value (failure gives -1), the remaining characters are matched by
`sepLoop` (failure gives -1), and on success the three weighted components
of the source are added:
`0.20*startScore + 0.5*sepScore + 0.2*matchScore` with
`startScore = 1 - (start/len(lval))` (where `start` is the first match
index plus one), `sepScore = max(1 - totalSep/len(test), 0)` and
`matchScore = len(test)/len(val)`. -/
def fuzzyScore (val test : List Char) : ℚ :=
  match toLower test with
  | [] => 0
  | t0 :: ts =>
    match indexOf (toLower val) t0 with
    | none => -1
    | some idx =>
      match sepLoop ((toLower val).drop (idx + 1)) ts with
      | none => -1
      | some totalSep =>
        1/5 * (1 - ((idx : ℚ) + 1) / ((toLower val).length : ℚ))
          + 1/2 * max (1 - (totalSep : ℚ) / (test.length : ℚ)) 0
          + 1/5 * ((test.length : ℚ) / (val.length : ℚ))

/-- Model of `FuzzyMatches` (src/fuzzy.go lines 9-11):
`fuzzyScore(val, test) >= 0`. -/
def FuzzyMatches (val test : List Char) : Bool :=
  decide (0 ≤ fuzzyScore val test)

/-- Instrumented view of the greedy search performed by `fuzzyScore`: on
success it returns the index of the first matched character together with
the accumulated total separation. -/
def greedyInfo (val test : List Char) : Option (Nat × Nat) :=
  match toLower test with
  | [] => none
  | t0 :: ts =>
    match indexOf (toLower val) t0 with
    | none => none
    | some idx =>
      (sepLoop ((toLower val).drop (idx + 1)) ts).map (fun sep => (idx, sep))

/-- The spec-worded matching rule, for comparison with the code: the search
tracks an absolute position in the lowered value and locates each
subsequent character of the lowered test at the earliest position after
the previous match. -/
def specSearch (lval : List Char) (pos : Nat) (cs : List Char) : Bool :=
  match cs with
  | [] => true
  | c :: rest =>
    match indexOf (lval.drop pos) c with
    | none => false
    | some i => specSearch lval (pos + i + 1) rest

/-- The spec-worded matching predicate: an empty test matches anything;
otherwise the first character of the lowered test must occur in the
lowered value, and the remaining characters must be found in order by the
greedy search. -/
def specMatches (val test : List Char) : Bool :=
  match toLower test with
  | [] => true
  | t0 :: ts =>
    match indexOf (toLower val) t0 with
    | none => false
    | some idx => specSearch (toLower val) (idx + 1) ts

/-! C4: inserting non-matching characters between the matched characters
(scattering) versus the fully contiguous match. -/

/-- `interleave [g1, ..., gn] [c1, ..., cn]` is `g1 ++ c1 :: g2 ++ c2 :: ...`:
gap segments inserted before each of the remaining matched characters. -/
def interleave : List (List Char) → List Char → List Char
  | [], cs => cs
  | _ :: _, [] => []
  | g :: gs, c :: cs => g ++ c :: interleave gs cs

/-! The ranker: `Item`, `byFuzzyScore` and `Items.fuzzySort`
(src/item.go). -/

/-- Model of `ItemArg` (src/item.go lines 25-32); `ModeType` is a Go
string type alias, modelled as a rune list. -/
structure ItemArg where
  keyword : List Char
  mode : List Char
  data : List Char
deriving DecidableEq

/-- Model of `ItemMod` (src/item.go lines 35-38). -/
structure ItemMod where
  arg : Option ItemArg
  subtitle : List Char
deriving DecidableEq

/-- Model of `workflowData` (a record of string primitives; `ModKey` and
`ModeType` are Go string aliases). -/
structure WorkflowData where
  keyword : List Char
  mode : List Char
  mod : List Char
  data : List Char
deriving DecidableEq

/-- Model of `Item` (src/item.go lines 9-21).  The Go `mods` map is
modelled as an association list. -/
structure Item where
  uid : List Char
  title : List Char
  subtitle : List Char
  autocomplete : List Char
  arg : Option ItemArg
  icon : List Char
  mods : List (List Char × ItemMod)
  data : WorkflowData
  fuzzyScore : ℚ
deriving DecidableEq

/-- The scoring pass of `fuzzySort` (src/item.go lines 227-229): cache the
title's fuzzy score in the item. -/
def setScore (test : List Char) (it : Item) : Item :=
  { it with fuzzyScore := fuzzyScore it.title test }

/-- `byFuzzyScore.Less` (src/item.go lines 221-223) is the strict `>` on
cached scores; Go's `sort.Stable` orders by its non-strict complement, so
`mergeSortLe a b` holds exactly when `a` may remain before `b`:
`!(Less b a)`, i.e. `b.fuzzyScore <= a.fuzzyScore`. -/
def mergeSortLe (a b : Item) : Bool :=
  decide (b.fuzzyScore ≤ a.fuzzyScore)

/-- Model of `Items.fuzzySort` (src/item.go lines 225-232): score every
item by its Title against the test string, then stable-sort by descending
cached score. -/
def fuzzySort (items : List Item) (test : List Char) : List Item :=
  (items.map (setScore test)).mergeSort mergeSortLe

/-- A minimal item carrying a given title, used for concrete instances. -/
def mkItem (title : List Char) : Item :=
  { uid := [], title := title, subtitle := [], autocomplete := [],
    arg := none, icon := [], mods := [], data := ⟨[], [], [], []⟩,
    fuzzyScore := 0 }

/-! Basic lemmas about the string model. -/

theorem toLower_length (s : List Char) : (toLower s).length = s.length :=
  List.length_map s Char.toLower

theorem toLower_nil_iff (s : List Char) : toLower s = [] ↔ s = [] := by
  constructor
  · intro h
    have := toLower_length s
    rw [h] at this
    exact List.length_eq_zero.mp this.symm
  · intro h
    simp [h, toLower]

theorem toLower_append (a b : List Char) :
    toLower (a ++ b) = toLower a ++ toLower b :=
  List.map_append Char.toLower a b

theorem toLower_cons (c : Char) (l : List Char) :
    toLower (c :: l) = Char.toLower c :: toLower l := rfl

theorem indexOf_lt_length {s : List Char} {c : Char} {i : Nat}
    (h : indexOf s c = some i) : i < s.length := by
  induction s generalizing i with
  | nil => simp [indexOf] at h
  | cons x xs ih =>
    rw [indexOf] at h
    by_cases hx : x = c
    · simp only [if_pos hx, Option.some.injEq] at h
      simp [← h]
    · simp only [if_neg hx, Option.map_eq_some'] at h
      rcases h with ⟨j, hj, rfl⟩
      have := ih hj
      simp only [List.length_cons]
      omega

theorem indexOf_cons_self (c : Char) (xs : List Char) :
    indexOf (c :: xs) c = some 0 := by
  simp [indexOf]

theorem indexOf_append_not_mem {c : Char} {a : List Char} (b : List Char)
    (h : c ∉ a) : indexOf (a ++ b) c = (indexOf b c).map (· + a.length) := by
  induction a with
  | nil => simp [Option.map_id]
  | cons x xs ih =>
    have hxc : ¬(x = c) := fun hx => h (hx ▸ List.mem_cons_self x xs)
    have hxs : c ∉ xs := fun hm => h (List.mem_cons_of_mem x hm)
    rw [List.cons_append, indexOf, if_neg hxc, ih hxs]
    cases indexOf b c with
    | none => rfl
    | some i =>
      simp
      omega

/-- When the remaining test characters sit contiguously at the front of the
search suffix, the loop matches each at offset 0 and the separation is 0. -/
theorem sepLoop_front (cs rest : List Char) : sepLoop (cs ++ rest) cs = some 0 := by
  induction cs generalizing rest with
  | nil => rfl
  | cons c cs ih =>
    rw [List.cons_append, sepLoop, indexOf_cons_self]
    simp [ih rest]

/-- Each matched character consumes its separation plus one position of the
search suffix, so the total consumed never exceeds the suffix length. -/
theorem sepLoop_le {s cs : List Char} {sep : Nat}
    (h : sepLoop s cs = some sep) : sep + cs.length ≤ s.length := by
  induction cs generalizing s sep with
  | nil =>
    simp only [sepLoop, Option.some.injEq] at h
    simp [← h]
  | cons c rest ih =>
    rw [sepLoop] at h
    rcases hidx : indexOf s c with _ | i
    · rw [hidx] at h; exact absurd h (by simp)
    · rw [hidx] at h
      simp only [Option.map_eq_some'] at h
      rcases h with ⟨t, ht, rfl⟩
      have h1 := ih ht
      have h2 := indexOf_lt_length hidx
      simp only [List.length_drop] at h1
      simp only [List.length_cons]
      omega

/-! Case-analysis lemmas for `fuzzyScore`. -/

theorem fuzzyScore_empty_test (val : List Char) : fuzzyScore val [] = 0 := rfl

theorem fuzzyScore_eq_of {val test : List Char} {t0 : Char} {ts : List Char}
    {idx sep : Nat} (h : toLower test = t0 :: ts)
    (h1 : indexOf (toLower val) t0 = some idx)
    (h2 : sepLoop ((toLower val).drop (idx + 1)) ts = some sep) :
    fuzzyScore val test =
      1/5 * (1 - ((idx : ℚ) + 1) / ((val.length : ℚ)))
        + 1/2 * max (1 - (sep : ℚ) / (test.length : ℚ)) 0
        + 1/5 * ((test.length : ℚ) / (val.length : ℚ)) := by
  rw [fuzzyScore, h]
  simp only [h1, h2, toLower_length]

theorem fuzzyScore_eq_neg_one_first {val test : List Char} {t0 : Char}
    {ts : List Char} (h : toLower test = t0 :: ts)
    (h1 : indexOf (toLower val) t0 = none) : fuzzyScore val test = -1 := by
  rw [fuzzyScore, h]
  simp only [h1]

theorem fuzzyScore_eq_neg_one_sep {val test : List Char} {t0 : Char}
    {ts : List Char} {idx : Nat} (h : toLower test = t0 :: ts)
    (h1 : indexOf (toLower val) t0 = some idx)
    (h2 : sepLoop ((toLower val).drop (idx + 1)) ts = none) :
    fuzzyScore val test = -1 := by
  rw [fuzzyScore, h]
  simp only [h1, h2]

/-! Arithmetic bounds for the success-branch score formula. -/

theorem scoreFormula_nonneg (s T L sep : ℚ) (hs1 : 1 ≤ s) (hsL : s ≤ L)
    (hT : 1 ≤ T) (_hsep : 0 ≤ sep) :
    0 ≤ 1/5 * (1 - s / L) + 1/2 * max (1 - sep / T) 0 + 1/5 * (T / L) := by
  have hL : (0:ℚ) < L := lt_of_lt_of_le one_pos (le_trans hs1 hsL)
  have h1 : s / L ≤ 1 := (div_le_one hL).mpr hsL
  have h3 : (0:ℚ) ≤ max (1 - sep / T) 0 := le_max_right _ _
  have h4 : (0:ℚ) ≤ T / L := div_nonneg (by linarith) (le_of_lt hL)
  linarith

theorem scoreFormula_upper (s T L sep : ℚ) (hs1 : 1 ≤ s) (hsL : s ≤ L)
    (hT : 1 ≤ T) (hTL : T ≤ L) (hsep : 0 ≤ sep) :
    1/5 * (1 - s / L) + 1/2 * max (1 - sep / T) 0 + 1/5 * (T / L)
      ≤ 9/10 - 1/(5*L) := by
  have hL : (0:ℚ) < L := lt_of_lt_of_le one_pos (le_trans hs1 hsL)
  have h1 : 1 / L ≤ s / L := (div_le_div_iff_of_pos_right hL).mpr hs1
  have hTpos : (0:ℚ) < T := lt_of_lt_of_le one_pos hT
  have h2 : max (1 - sep / T) 0 ≤ 1 := by
    have : (0:ℚ) ≤ sep / T := div_nonneg hsep (le_of_lt hTpos)
    apply max_le <;> linarith
  have h3 : T / L ≤ 1 := (div_le_one hL).mpr hTL
  have key : (1:ℚ)/(5*L) = 1/5 * (1/L) := by ring
  rw [key]
  linarith

/-- Exhaustive case analysis of `fuzzyScore`: empty test, failed search, or
a successful search with its first index and total separation. -/
theorem fuzzyScore_cases (val test : List Char) :
    (fuzzyScore val test = 0 ∧ toLower test = []) ∨
    fuzzyScore val test = -1 ∨
    (∃ t0 ts idx sep, toLower test = t0 :: ts ∧
      indexOf (toLower val) t0 = some idx ∧
      sepLoop ((toLower val).drop (idx + 1)) ts = some sep) := by
  rcases htest : toLower test with _ | ⟨t0, ts⟩
  · exact Or.inl ⟨by rw [fuzzyScore, htest], rfl⟩
  · right
    rcases hidx : indexOf (toLower val) t0 with _ | idx
    · exact Or.inl (fuzzyScore_eq_neg_one_first htest hidx)
    · rcases hsep : sepLoop ((toLower val).drop (idx + 1)) ts with _ | sep
      · exact Or.inl (fuzzyScore_eq_neg_one_sep htest hidx hsep)
      · exact Or.inr ⟨t0, ts, idx, sep, rfl, hidx, hsep⟩

/-- On a successful search the score is nonnegative. -/
theorem fuzzyScore_success_nonneg {val test : List Char} {t0 : Char}
    {ts : List Char} {idx sep : Nat} (h : toLower test = t0 :: ts)
    (h1 : indexOf (toLower val) t0 = some idx)
    (h2 : sepLoop ((toLower val).drop (idx + 1)) ts = some sep) :
    0 ≤ fuzzyScore val test := by
  rw [fuzzyScore_eq_of h h1 h2]
  have hidx := indexOf_lt_length h1
  rw [toLower_length] at hidx
  have htl : test.length = ts.length + 1 := by
    have hl := toLower_length test
    rw [h] at hl
    simp at hl
    omega
  apply scoreFormula_nonneg
  · have : (0:ℚ) ≤ (idx : ℚ) := Nat.cast_nonneg idx
    linarith
  · have : idx + 1 ≤ val.length := hidx
    exact_mod_cast this
  · have : 1 ≤ test.length := by omega
    exact_mod_cast this
  · exact Nat.cast_nonneg sep

/-- On a successful search the score is bounded above by
`9/10 - 1/(5*len(val))`: the best possible value for a fixed candidate. -/
theorem fuzzyScore_success_upper {val test : List Char} {t0 : Char}
    {ts : List Char} {idx sep : Nat} (h : toLower test = t0 :: ts)
    (h1 : indexOf (toLower val) t0 = some idx)
    (h2 : sepLoop ((toLower val).drop (idx + 1)) ts = some sep) :
    fuzzyScore val test ≤ 9/10 - 1/(5*(val.length : ℚ)) := by
  rw [fuzzyScore_eq_of h h1 h2]
  have hidx := indexOf_lt_length h1
  rw [toLower_length] at hidx
  have htl : test.length = ts.length + 1 := by
    have hl := toLower_length test
    rw [h] at hl
    simp at hl
    omega
  have hle := sepLoop_le h2
  rw [List.length_drop, toLower_length] at hle
  have hTL : test.length ≤ val.length := by omega
  apply scoreFormula_upper
  · have : (0:ℚ) ≤ (idx : ℚ) := Nat.cast_nonneg idx
    linarith
  · have : idx + 1 ≤ val.length := hidx
    exact_mod_cast this
  · have : 1 ≤ test.length := by omega
    exact_mod_cast this
  · exact_mod_cast hTL
  · exact Nat.cast_nonneg sep

/-- The score is either exactly the sentinel -1 or nonnegative. -/
theorem fuzzyScore_dichotomy (val test : List Char) :
    fuzzyScore val test = -1 ∨ 0 ≤ fuzzyScore val test := by
  rcases fuzzyScore_cases val test with ⟨h0, _⟩ | hneg | ⟨t0, ts, idx, sep, h, h1, h2⟩
  · exact Or.inr (le_of_eq h0.symm)
  · exact Or.inl hneg
  · exact Or.inr (fuzzyScore_success_nonneg h h1 h2)

/-! Equivalence of the code's suffix-passing search with the spec's
absolute-position search. -/

theorem specSearch_eq_sepLoop (cs : List Char) (l : List Char) (pos : Nat) :
    specSearch l pos cs = (sepLoop (l.drop pos) cs).isSome := by
  induction cs generalizing pos with
  | nil => rfl
  | cons c rest ih =>
    rw [specSearch, sepLoop]
    rcases hidx : indexOf (l.drop pos) c with _ | i
    · rfl
    · show specSearch l (pos + i + 1) rest
        = (Option.map (fun t => i + t)
            (sepLoop ((l.drop pos).drop (i + 1)) rest)).isSome
      have hdd : (l.drop pos).drop (i + 1) = l.drop (pos + i + 1) := by
        rw [List.drop_drop, Nat.add_assoc]
      rw [hdd, ih (pos + i + 1)]
      cases sepLoop (l.drop (pos + i + 1)) rest <;> rfl

theorem fuzzyMatches_eq_specMatches (val test : List Char) :
    FuzzyMatches val test = specMatches val test := by
  unfold FuzzyMatches specMatches
  rcases htest : toLower test with _ | ⟨t0, ts⟩
  · have h0 : fuzzyScore val test = 0 := by rw [fuzzyScore, htest]
    rw [h0]
    exact decide_eq_true le_rfl
  · show decide (0 ≤ fuzzyScore val test)
      = match indexOf (toLower val) t0 with
        | none => false
        | some idx => specSearch (toLower val) (idx + 1) ts
    rcases hidx : indexOf (toLower val) t0 with _ | idx
    · show decide (0 ≤ fuzzyScore val test) = false
      rw [fuzzyScore_eq_neg_one_first htest hidx]
      exact decide_eq_false (by norm_num)
    · show decide (0 ≤ fuzzyScore val test) = specSearch (toLower val) (idx + 1) ts
      rw [specSearch_eq_sepLoop]
      rcases hsep : sepLoop ((toLower val).drop (idx + 1)) ts with _ | sep
      · show decide (0 ≤ fuzzyScore val test) = false
        rw [fuzzyScore_eq_neg_one_sep htest hidx hsep]
        exact decide_eq_false (by norm_num)
      · rw [Option.isSome_some]
        exact decide_eq_true (fuzzyScore_success_nonneg htest hidx hsep)

theorem specMatches_empty_test (val : List Char) : specMatches val [] = true := rfl

/-- C1: `FuzzyMatches(val, test)` is true iff `test` is empty or the
case-insensitive greedy search succeeds (first character at its first
occurrence, each subsequent character at the earliest position after the
previous match); if any character cannot be found in order `fuzzyScore`
returns the sentinel -1; and `FuzzyMatches` is exactly the predicate
`fuzzyScore(val, test) >= 0`. -/
theorem fuzzyMatches_iff_greedy (val test : List Char) :
    (FuzzyMatches val test = true ↔ (test = [] ∨ specMatches val test = true)) ∧
    (specMatches val test = false → fuzzyScore val test = -1) ∧
    FuzzyMatches val test = decide (0 ≤ fuzzyScore val test) := by
  refine ⟨?_, ?_, rfl⟩
  · rw [fuzzyMatches_eq_specMatches]
    constructor
    · intro h
      exact Or.inr h
    · rintro (rfl | h)
      · exact specMatches_empty_test val
      · exact h
  · intro h
    have hm := fuzzyMatches_eq_specMatches val test
    rw [h] at hm
    unfold FuzzyMatches at hm
    have hns : ¬ (0 ≤ fuzzyScore val test) := of_decide_eq_false hm
    rcases fuzzyScore_dichotomy val test with h1 | h1
    · exact h1
    · exact absurd h1 hns

theorem fuzzyMatches_iff_greedy_witness :
    fuzzyScore ['x'] ['y'] = -1 ∧
    FuzzyMatches ['x'] ['y'] = decide (0 ≤ fuzzyScore ['x'] ['y']) :=
  ⟨(fuzzyMatches_iff_greedy ['x'] ['y']).2.1 (by decide),
   (fuzzyMatches_iff_greedy ['x'] ['y']).2.2⟩

/-- C8: an empty test always matches with score exactly 0, regardless of
the candidate. -/
theorem empty_test_matches (val : List Char) :
    fuzzyScore val [] = 0 ∧ FuzzyMatches val [] = true := by
  refine ⟨rfl, ?_⟩
  unfold FuzzyMatches
  rw [fuzzyScore_empty_test]
  exact decide_eq_true le_rfl

theorem empty_test_matches_witness :
    fuzzyScore ['H', 'i'] [] = 0 ∧ FuzzyMatches ['H', 'i'] [] = true :=
  empty_test_matches ['H', 'i']

/-- C9: the score is either exactly -1 or nonnegative — nothing lies
strictly between -1 and 0 — so the predicate `fuzzyScore >= 0` coincides
with `fuzzyScore != -1`. -/
theorem score_is_sentinel_or_nonneg (val test : List Char) :
    (fuzzyScore val test = -1 ∨ 0 ≤ fuzzyScore val test) ∧
    ¬(-1 < fuzzyScore val test ∧ fuzzyScore val test < 0) ∧
    (FuzzyMatches val test = true ↔ fuzzyScore val test ≠ -1) := by
  have hd := fuzzyScore_dichotomy val test
  refine ⟨hd, ?_, ?_⟩
  · rintro ⟨hlt, hlt0⟩
    rcases hd with h | h
    · rw [h] at hlt
      exact lt_irrefl _ hlt
    · exact absurd hlt0 (not_lt.mpr h)
  · unfold FuzzyMatches
    rw [decide_eq_true_eq]
    constructor
    · intro h hcontra
      rw [hcontra] at h
      norm_num at h
    · intro h
      rcases hd with h1 | h1
      · exact absurd h1 h
      · exact h1

theorem score_is_sentinel_or_nonneg_witness :
    (fuzzyScore ['a', 'b'] ['b'] = -1 ∨ 0 ≤ fuzzyScore ['a', 'b'] ['b']) ∧
    (FuzzyMatches ['a', 'b'] ['b'] = true ↔ fuzzyScore ['a', 'b'] ['b'] ≠ -1) :=
  ⟨(score_is_sentinel_or_nonneg ['a', 'b'] ['b']).1,
   (score_is_sentinel_or_nonneg ['a', 'b'] ['b']).2.2⟩

/-- C7: the modelled score function is total, the empty-candidate case
short-circuits to the sentinel -1 before any division, and every return
value lies in the bounded interval [-1, 9/10] — never a NaN or an
infinity. -/
theorem score_total_and_bounded (val test : List Char) :
    (val = [] → test ≠ [] → fuzzyScore val test = -1) ∧
    -1 ≤ fuzzyScore val test ∧ fuzzyScore val test ≤ 9/10 := by
  refine ⟨?_, ?_, ?_⟩
  · rintro rfl hne
    rcases htest : toLower test with _ | ⟨t0, ts⟩
    · exact absurd ((toLower_nil_iff test).mp htest) hne
    · exact fuzzyScore_eq_neg_one_first htest (by rfl)
  · rcases fuzzyScore_dichotomy val test with h | h
    · exact le_of_eq h.symm
    · linarith
  · rcases fuzzyScore_cases val test with ⟨h0, _⟩ | hneg | ⟨t0, ts, idx, sep, h, h1, h2⟩
    · rw [h0]; norm_num
    · rw [hneg]; norm_num
    · have hup := fuzzyScore_success_upper h h1 h2
      have hpos : (0:ℚ) ≤ 1 / (5 * (val.length : ℚ)) := by
        apply div_nonneg (by norm_num)
        have : (0:ℚ) ≤ (val.length : ℚ) := Nat.cast_nonneg _
        linarith
      linarith

theorem score_total_and_bounded_witness :
    fuzzyScore [] ['a'] = -1 ∧
    (-1 ≤ fuzzyScore ['a', 'b'] [' '] ∧ fuzzyScore ['a', 'b'] [' '] ≤ 9/10) :=
  ⟨(score_total_and_bounded [] ['a']).1 rfl (by decide),
   (score_total_and_bounded ['a', 'b'] [' ']).2⟩

/-! The score of a full case-insensitive self-match, and its maximality. -/

theorem sepLoop_self (cs : List Char) : sepLoop cs cs = some 0 := by
  have h := sepLoop_front cs []
  rwa [List.append_nil] at h

/-- For every candidate, every score is at most `9/10 - 1/(5*len(val))`. -/
theorem fuzzyScore_le_best (val test : List Char) (hne : val ≠ []) :
    fuzzyScore val test ≤ 9/10 - 1/(5*(val.length : ℚ)) := by
  have hlen : 1 ≤ val.length := List.length_pos.mpr hne
  have hlq : (1:ℚ) ≤ (val.length : ℚ) := by exact_mod_cast hlen
  rcases fuzzyScore_cases val test with ⟨h0, _⟩ | hneg | ⟨t0, ts, idx, sep, h, h1, h2⟩
  · rw [h0]
    have h5 : (5:ℚ) ≤ 5 * (val.length : ℚ) := by linarith
    have := one_div_le_one_div_of_le (by norm_num : (0:ℚ) < 5) h5
    norm_num at this ⊢
    linarith
  · rw [hneg]
    have h5 : (5:ℚ) ≤ 5 * (val.length : ℚ) := by linarith
    have := one_div_le_one_div_of_le (by norm_num : (0:ℚ) < 5) h5
    norm_num at this ⊢
    linarith
  · exact fuzzyScore_success_upper h h1 h2

/-- C3 (amended): for a non-empty candidate equal to the test up to case,
the score is exactly `9/10 - 1/(5*len(val))`, which is the maximum (best)
attainable score for that candidate — the code treats higher scores as
better, so a full match at the start scores near 0.9, not near 0. -/
theorem self_match_is_best (val test : List Char)
    (h : toLower val = toLower test) (hne : val ≠ []) :
    fuzzyScore val test = 9/10 - 1/(5*(val.length : ℚ)) ∧
    ∀ t2, fuzzyScore val t2 ≤ fuzzyScore val test := by
  have hlv : toLower val ≠ [] := fun hc => hne ((toLower_nil_iff val).mp hc)
  rcases hlv2 : toLower val with _ | ⟨t0, ts⟩
  · exact absurd hlv2 hlv
  have htest : toLower test = t0 :: ts := by rw [← h, hlv2]
  have hsep : sepLoop ((toLower val).drop (0 + 1)) ts = some 0 := by
    rw [hlv2]
    exact sepLoop_self ts
  have hlen : val.length = ts.length + 1 := by
    have := toLower_length val
    rw [hlv2] at this
    simp at this
    omega
  have hlent : test.length = val.length := by
    have h1 := toLower_length val
    have h2 := toLower_length test
    rw [h] at h1
    omega
  have hlq : (1:ℚ) ≤ (val.length : ℚ) := by
    have : 1 ≤ val.length := by omega
    exact_mod_cast this
  have hL0 : (val.length : ℚ) ≠ 0 := by linarith
  have hscore := fuzzyScore_eq_of htest (by rw [hlv2]; exact indexOf_cons_self t0 ts) hsep
  constructor
  · rw [hscore, hlent]
    push_cast
    rw [zero_div, sub_zero, max_eq_left (by norm_num : (0:ℚ) ≤ 1)]
    field_simp
    ring
  · intro t2
    have hb := fuzzyScore_le_best val t2 hne
    rw [hscore, hlent]
    push_cast
    rw [zero_div, sub_zero, max_eq_left (by norm_num : (0:ℚ) ≤ 1)]
    have heq : 1/5 * (1 - (0 + 1) / (val.length:ℚ)) + 1/2 * 1
        + 1/5 * ((val.length:ℚ) / (val.length:ℚ)) = 9/10 - 1/(5*(val.length:ℚ)) := by
      field_simp
      ring
    rw [heq]
    exact hb

theorem self_match_is_best_witness :
    toLower ['H','e','l','l','o'] = toLower ['h','e','l','l','o'] ∧
    (['H','e','l','l','o'] : List Char) ≠ [] ∧
    fuzzyScore ['H','e','l','l','o'] ['h','e','l','l','o']
      = 9/10 - 1/(5*((['H','e','l','l','o'] : List Char).length : ℚ)) :=
  ⟨by decide, by decide,
   (self_match_is_best ['H','e','l','l','o'] ['h','e','l','l','o']
     (by decide) (by decide)).1⟩

/-- C3 counterexample: `fuzzyScore("Hello", "hello")` is 43/50 = 0.86, not
approximately 0, and it is not the minimum attainable value for the
candidate — the single-character test "o" scores strictly lower. -/
theorem self_match_not_near_zero :
    fuzzyScore ['H','e','l','l','o'] ['h','e','l','l','o'] = 43/50 ∧
    ¬ (fuzzyScore ['H','e','l','l','o'] ['h','e','l','l','o'] ≤ 1/10) ∧
    fuzzyScore ['H','e','l','l','o'] ['o']
      < fuzzyScore ['H','e','l','l','o'] ['h','e','l','l','o'] := by
  have h1 : fuzzyScore ['H','e','l','l','o'] ['h','e','l','l','o'] = 43/50 := by
    rw [@fuzzyScore_eq_of ['H','e','l','l','o'] ['h','e','l','l','o'] 'h'
      ['e','l','l','o'] 0 0 (by decide) (by decide) (by decide)]
    norm_num [max_def]
  have h2 : fuzzyScore ['H','e','l','l','o'] ['o'] = 27/50 := by
    rw [@fuzzyScore_eq_of ['H','e','l','l','o'] ['o'] 'o' [] 4 0
      (by decide) (by decide) (by decide)]
    norm_num [max_def]
  refine ⟨h1, ?_, ?_⟩
  · rw [h1]
    norm_num
  · rw [h1, h2]
    norm_num

/-! C2: decomposition of the success-branch score into its three weighted
components. -/

/-- C2 (amended): on a successful greedy search with first-match index
`idx` and total separation `sep`, the score decomposes as
`0.20*startComponent + 0.50*compactnessComponent + 0.20*coverageComponent`
with `startComponent = 1 - (idx+1)/len(val)`,
`compactnessComponent = max(1 - sep/len(test), 0)` and
`coverageComponent = len(test)/len(val)`.  The coverage weight 0.20 lies
in the claimed range [0.20, 0.30], but the three weights sum to 0.90, not
to 1.0. -/
theorem score_decomposition (val test : List Char) (idx sep : Nat)
    (h : greedyInfo val test = some (idx, sep)) :
    fuzzyScore val test =
      1/5 * (1 - ((idx : ℚ) + 1) / (val.length : ℚ))
        + 1/2 * max (1 - (sep : ℚ) / (test.length : ℚ)) 0
        + 1/5 * ((test.length : ℚ) / (val.length : ℚ)) ∧
    ((1:ℚ)/5 + 1/2 + 1/5 = 9/10) ∧
    ((1:ℚ)/5 ≤ 3/10 ∧ (2:ℚ)/10 ≤ 1/5) := by
  refine ⟨?_, by norm_num, by norm_num, by norm_num⟩
  rcases htest : toLower test with _ | ⟨t0, ts⟩
  · rw [greedyInfo, htest] at h
    exact absurd h (by simp)
  · rw [greedyInfo, htest] at h
    have h' : (match indexOf (toLower val) t0 with
        | none => none
        | some j =>
          Option.map (fun sep => (j, sep)) (sepLoop ((toLower val).drop (j + 1)) ts))
        = some (idx, sep) := h
    rcases hidx : indexOf (toLower val) t0 with _ | idx2
    · rw [hidx] at h'
      exact absurd h' (by simp)
    · rw [hidx] at h'
      have h2 : Option.map (fun s => (idx2, s))
          (sepLoop ((toLower val).drop (idx2 + 1)) ts) = some (idx, sep) := h'
      rcases hsep : sepLoop ((toLower val).drop (idx2 + 1)) ts with _ | sep2
      · rw [hsep] at h2
        exact absurd h2 (by simp)
      · rw [hsep] at h2
        simp only [Option.map_some', Option.some.injEq, Prod.mk.injEq] at h2
        obtain ⟨rfl, rfl⟩ := h2
        exact fuzzyScore_eq_of htest hidx hsep

theorem score_decomposition_witness :
    greedyInfo ['a','x','b'] ['a','b'] = some (0, 1) ∧
    fuzzyScore ['a','x','b'] ['a','b'] =
      1/5 * (1 - ((0 : ℚ) + 1) / ((3:ℕ) : ℚ))
        + 1/2 * max (1 - ((1:ℕ) : ℚ) / ((2:ℕ) : ℚ)) 0
        + 1/5 * (((2:ℕ) : ℚ) / ((3:ℕ) : ℚ)) :=
  ⟨by decide, (score_decomposition ['a','x','b'] ['a','b'] 0 1 (by decide)).1⟩

/-- C2 counterexample: with weights summing to 1.0 the coverage weight
would be forced to 0.30, and the claimed formula then predicts 0.8 for a
full one-character match, while the code returns 0.7. -/
theorem score_decomposition_weights_off :
    fuzzyScore ['a'] ['a'] = 7/10 ∧
    ¬ (fuzzyScore ['a'] ['a'] =
      1/5 * (1 - ((0 : ℚ) + 1) / 1) + 1/2 * max (1 - (0 : ℚ) / 1) 0
        + 3/10 * ((1 : ℚ) / 1)) := by
  have h1 : fuzzyScore ['a'] ['a'] = 7/10 := by
    rw [@fuzzyScore_eq_of ['a'] ['a'] 'a' [] 0 0
      (by decide) (by decide) (by decide)]
    norm_num [max_def]
  refine ⟨h1, ?_⟩
  rw [h1]
  norm_num [max_def]

theorem interleave_length (cs : List Char) (gs : List (List Char))
    (h : gs.length = cs.length) :
    (interleave gs cs).length = cs.length + (gs.map List.length).sum := by
  induction cs generalizing gs with
  | nil =>
    have : gs = [] := List.length_eq_zero.mp h
    subst this
    rfl
  | cons c cs ih =>
    rcases gs with _ | ⟨g, gs⟩
    · simp at h
    · simp only [List.length_cons] at h
      rw [interleave]
      simp only [List.length_append, List.length_cons, ih gs (by omega),
        List.map_cons, List.sum_cons]
      omega

theorem toLower_interleave (cs : List Char) (gs : List (List Char)) :
    toLower (interleave gs cs) = interleave (gs.map toLower) (toLower cs) := by
  induction cs generalizing gs with
  | nil =>
    rcases gs with _ | ⟨g, gs⟩ <;> rfl
  | cons c cs ih =>
    rcases gs with _ | ⟨g, gs⟩
    · rfl
    · rw [interleave, List.map_cons, toLower_cons, interleave, toLower_append,
        toLower_cons, ih gs]

theorem drop_append_cons (g : List Char) (c : Char) (rest : List Char) :
    (g ++ c :: rest).drop (g.length + 1) = rest := by
  have h : g ++ c :: rest = (g ++ [c]) ++ rest := by simp
  have h2 : (g ++ [c]).length = g.length + 1 := by simp
  rw [h, ← h2, List.drop_left]

/-- Running the search loop over gap-interleaved characters finds every
character right after its gap, accumulating exactly the total gap length. -/
theorem sepLoop_interleave (cs : List Char) (gs : List (List Char))
    (hlen : gs.length = cs.length)
    (hdisj : ∀ g ∈ gs, ∀ x ∈ g, x ∉ cs) :
    sepLoop (interleave gs cs) cs = some ((gs.map List.length).sum) := by
  induction cs generalizing gs with
  | nil =>
    have : gs = [] := List.length_eq_zero.mp hlen
    subst this
    rfl
  | cons c cs ih =>
    rcases gs with _ | ⟨g, gs⟩
    · simp at hlen
    · simp only [List.length_cons] at hlen
      have hcg : c ∉ g := by
        intro hc
        exact hdisj g (List.mem_cons_self g gs) c hc (List.mem_cons_self c cs)
      rw [interleave, sepLoop, indexOf_append_not_mem (c :: interleave gs cs) hcg,
        indexOf_cons_self]
      simp only [Option.map_some', Nat.zero_add]
      have hdisj2 : ∀ g2 ∈ gs, ∀ x ∈ g2, x ∉ cs := by
        intro g2 hg2 x hx hxc
        exact hdisj g2 (List.mem_cons_of_mem g hg2) x hx (List.mem_cons_of_mem c hxc)
      rw [drop_append_cons, ih gs (by omega) hdisj2]
      simp only [Option.map_some', List.map_cons, List.sum_cons]

/-- Arithmetic core of monotonic degradation: lengthening the candidate by
`K` inserted characters while picking up total separation `K` can only
lower the (higher-is-better) score relative to a contiguous match. -/
theorem scatterFormula_le (s T L K : ℚ) (hs1 : 1 ≤ s) (hsL : s ≤ L)
    (hT1 : 1 ≤ T) (hTL : T ≤ L) (hK : 0 ≤ K) :
    1/5 * (1 - s/(L+K)) + 1/2 * max (1 - K/T) 0 + 1/5 * (T/(L+K))
      ≤ 1/5 * (1 - s/L) + 1/2 * max (1 - (0:ℚ)/T) 0 + 1/5 * (T/L) := by
  have hT : (0:ℚ) < T := lt_of_lt_of_le one_pos hT1
  have hL : (0:ℚ) < L := lt_of_lt_of_le one_pos (le_trans hs1 hsL)
  have hLK : (0:ℚ) < L + K := by linarith
  have hTne : T ≠ 0 := ne_of_gt hT
  have hLne : L ≠ 0 := ne_of_gt hL
  have hLKne : L + K ≠ 0 := ne_of_gt hLK
  rw [zero_div, sub_zero, max_eq_left (by norm_num : (0:ℚ) ≤ 1)]
  rcases le_or_lt K T with hcase | hcase
  · have hmax : max (1 - K/T) 0 = 1 - K/T := by
      apply max_eq_left
      have : K/T ≤ 1 := (div_le_one hT).mpr hcase
      linarith
    rw [hmax, ← sub_nonneg]
    have expand : 1/5 * (1 - s/L) + 1/2 * 1 + 1/5 * (T/L)
        - (1/5 * (1 - s/(L+K)) + 1/2 * (1 - K/T) + 1/5 * (T/(L+K)))
        = K * (2*T*(T-s) + 5*L*(L+K)) / (10*T*L*(L+K)) := by
      field_simp
      ring
    rw [expand]
    apply div_nonneg
    · apply mul_nonneg hK
      have hTs : T*s ≤ L*L := mul_le_mul hTL hsL (by linarith) (by linarith)
      nlinarith [sq_nonneg T, mul_nonneg hL.le hK]
    · positivity
  · have hmax : max (1 - K/T) 0 = 0 := by
      apply max_eq_right
      have : 1 < K/T := (one_lt_div hT).mpr hcase
      linarith
    rw [hmax, ← sub_nonneg]
    have expand : 1/5 * (1 - s/L) + 1/2 * 1 + 1/5 * (T/L)
        - (1/5 * (1 - s/(L+K)) + 1/2 * 0 + 1/5 * (T/(L+K)))
        = (2*K*(T - s) + 5*L*(L+K)) / (10*L*(L+K)) := by
      field_simp
      ring
    rw [expand]
    apply div_nonneg
    · have hKs : K*s ≤ K*L := mul_le_mul_of_nonneg_left hsL hK
      nlinarith [mul_nonneg hK (by linarith : (0:ℚ) ≤ T), mul_nonneg hL.le hK,
        sq_nonneg L]
    · positivity

/-- C4 (amended): inserting extra non-matching characters between the
matched characters of the test inside the candidate (scattering the match)
never raises the score above the fully contiguous match — under the
code's higher-is-better convention the scattered variant scores at most
the contiguous one. -/
theorem scattered_not_better (p : List Char) (t0 : Char) (ts : List Char)
    (gaps : List (List Char))
    (hlen : gaps.length = ts.length)
    (hhead : Char.toLower t0 ∉ toLower p)
    (hgaps : ∀ g ∈ gaps, ∀ x ∈ g, Char.toLower x ∉ toLower (t0 :: ts)) :
    fuzzyScore (p ++ t0 :: interleave gaps ts) (t0 :: ts)
      ≤ fuzzyScore (p ++ t0 :: ts) (t0 :: ts) := by
  have htest : toLower (t0 :: ts) = Char.toLower t0 :: toLower ts :=
    toLower_cons t0 ts
  have hv1 : toLower (p ++ t0 :: ts)
      = toLower p ++ Char.toLower t0 :: toLower ts := by
    rw [toLower_append, toLower_cons]
  have hv2 : toLower (p ++ t0 :: interleave gaps ts)
      = toLower p ++ Char.toLower t0 :: interleave (gaps.map toLower) (toLower ts) := by
    rw [toLower_append, toLower_cons, toLower_interleave]
  have hidx1 : indexOf (toLower (p ++ t0 :: ts)) (Char.toLower t0)
      = some p.length := by
    rw [hv1, indexOf_append_not_mem _ hhead, indexOf_cons_self]
    simp [toLower_length]
  have hidx2 : indexOf (toLower (p ++ t0 :: interleave gaps ts)) (Char.toLower t0)
      = some p.length := by
    rw [hv2, indexOf_append_not_mem _ hhead, indexOf_cons_self]
    simp [toLower_length]
  have hsep1 : sepLoop ((toLower (p ++ t0 :: ts)).drop (p.length + 1))
      (toLower ts) = some 0 := by
    rw [hv1, ← toLower_length p, drop_append_cons]
    exact sepLoop_self (toLower ts)
  have hlen2 : (gaps.map toLower).length = (toLower ts).length := by
    simp [hlen, toLower_length]
  have hdisj : ∀ g2 ∈ gaps.map toLower, ∀ x ∈ g2, x ∉ toLower ts := by
    intro g2 hg2 x hx
    rcases List.mem_map.mp hg2 with ⟨g, hg, rfl⟩
    rcases List.mem_map.mp hx with ⟨x0, hx0, rfl⟩
    have hnotin := hgaps g hg x0 hx0
    rw [toLower_cons] at hnotin
    exact fun hm => hnotin (List.mem_cons_of_mem _ hm)
  have hsep2 : sepLoop ((toLower (p ++ t0 :: interleave gaps ts)).drop (p.length + 1))
      (toLower ts) = some (((gaps.map toLower).map List.length).sum) := by
    rw [hv2, ← toLower_length p, drop_append_cons]
    exact sepLoop_interleave (toLower ts) (gaps.map toLower) hlen2 hdisj
  have hKeq : ((gaps.map toLower).map List.length).sum = (gaps.map List.length).sum := by
    rw [List.map_map]
    congr 1
    exact List.map_congr_left (fun g _ => toLower_length g)
  have hLc : (p ++ t0 :: ts).length = p.length + ts.length + 1 := by
    simp
    omega
  have hLs : (p ++ t0 :: interleave gaps ts).length
      = p.length + ts.length + 1 + (gaps.map List.length).sum := by
    simp [interleave_length ts gaps hlen]
    omega
  rw [fuzzyScore_eq_of htest hidx2 hsep2, fuzzyScore_eq_of htest hidx1 hsep1]
  rw [hKeq, hLc, hLs]
  have hTlen : (t0 :: ts).length = ts.length + 1 := rfl
  rw [hTlen]
  generalize (List.map List.length gaps).sum = K
  push_cast
  exact scatterFormula_le ((p.length : ℚ) + 1) ((ts.length : ℚ) + 1)
    ((p.length : ℚ) + (ts.length : ℚ) + 1) ((K : ℚ))
    (by have : (0:ℚ) ≤ (p.length : ℚ) := Nat.cast_nonneg _; linarith)
    (by have : (0:ℚ) ≤ (ts.length : ℚ) := Nat.cast_nonneg _; linarith)
    (by have : (0:ℚ) ≤ (ts.length : ℚ) := Nat.cast_nonneg _; linarith)
    (by have : (0:ℚ) ≤ (p.length : ℚ) := Nat.cast_nonneg _; linarith)
    (Nat.cast_nonneg _)

theorem scattered_not_better_witness :
    ((([['x']] : List (List Char)).length = (['b'] : List Char).length) ∧
     Char.toLower 'a' ∉ toLower [] ∧
     (∀ g ∈ ([['x']] : List (List Char)), ∀ x ∈ g,
        Char.toLower x ∉ toLower ['a', 'b'])) ∧
    fuzzyScore ([] ++ 'a' :: interleave [['x']] ['b']) ['a', 'b']
      ≤ fuzzyScore ([] ++ 'a' :: ['b']) ['a', 'b'] :=
  ⟨⟨by decide, by decide, by decide⟩,
   scattered_not_better [] 'a' ['b'] [['x']] (by decide) (by decide) (by decide)⟩

/-- C4 counterexample: read with the spec's lower-is-better convention the
claim would require the scattered score not to drop below the contiguous
one, but scattering "ab" inside "axb" yields 31/60, strictly below the
contiguous 4/5. -/
theorem scattered_score_drops :
    fuzzyScore ['a', 'x', 'b'] ['a', 'b'] = 31/60 ∧
    fuzzyScore ['a', 'b'] ['a', 'b'] = 4/5 ∧
    ¬ (fuzzyScore ['a', 'b'] ['a', 'b'] ≤ fuzzyScore ['a', 'x', 'b'] ['a', 'b']) := by
  have h1 : fuzzyScore ['a', 'x', 'b'] ['a', 'b'] = 31/60 := by
    rw [@fuzzyScore_eq_of ['a','x','b'] ['a','b'] 'a' ['b'] 0 1
      (by decide) (by decide) (by decide)]
    norm_num [max_def]
  have h2 : fuzzyScore ['a', 'b'] ['a', 'b'] = 4/5 := by
    rw [@fuzzyScore_eq_of ['a','b'] ['a','b'] 'a' ['b'] 0 0
      (by decide) (by decide) (by decide)]
    norm_num [max_def]
  refine ⟨h1, h2, ?_⟩
  rw [h1, h2]
  norm_num

theorem mergeSortLe_trans (a b c : Item) (h1 : mergeSortLe a b = true)
    (h2 : mergeSortLe b c = true) : mergeSortLe a c = true := by
  simp only [mergeSortLe, decide_eq_true_eq] at h1 h2 ⊢
  exact le_trans h2 h1

theorem mergeSortLe_total (a b : Item) :
    (mergeSortLe a b || mergeSortLe b a) = true := by
  simp only [mergeSortLe, Bool.or_eq_true, decide_eq_true_eq]
  exact le_total b.fuzzyScore a.fuzzyScore

theorem setScore_title (test : List Char) (it : Item) :
    (setScore test it).title = it.title := rfl

theorem fuzzySort_perm_scored (items : List Item) (test : List Char) :
    (fuzzySort items test).Perm (items.map (setScore test)) :=
  List.mergeSort_perm (items.map (setScore test)) mergeSortLe

/-- Every item in the output carries its own title's score in the cache
field. -/
theorem mem_fuzzySort_score {items : List Item} {test : List Char} {it : Item}
    (h : it ∈ fuzzySort items test) :
    it.fuzzyScore = fuzzyScore it.title test := by
  have hm : it ∈ items.map (setScore test) :=
    (fuzzySort_perm_scored items test).mem_iff.mp h
  rcases List.mem_map.mp hm with ⟨x, _, rfl⟩
  rfl

/-- C5: after `fuzzySort`, every item whose Title cannot fuzzy-match the
query carries the sentinel score -1, and every such item is placed after
every item whose Title does match (scores sort in descending order, so
all matching items precede all non-matching ones). -/
theorem no_match_sorts_last (items : List Item) (test : List Char) :
    (∀ it ∈ fuzzySort items test,
      FuzzyMatches it.title test = false → it.fuzzyScore = -1) ∧
    (fuzzySort items test).Pairwise
      (fun a b => FuzzyMatches b.title test = true → FuzzyMatches a.title test = true) := by
  constructor
  · intro it hit hno
    rw [mem_fuzzySort_score hit]
    unfold FuzzyMatches at hno
    have hns : ¬ (0 ≤ fuzzyScore it.title test) := of_decide_eq_false hno
    rcases fuzzyScore_dichotomy it.title test with h | h
    · exact h
    · exact absurd h hns
  · have hp : (fuzzySort items test).Pairwise (fun a b => mergeSortLe a b = true) :=
      List.sorted_mergeSort mergeSortLe_trans mergeSortLe_total
        (items.map (setScore test))
    apply hp.imp_of_mem
    intro a b ha hb hle hbm
    unfold FuzzyMatches at hbm ⊢
    rw [decide_eq_true_eq] at hbm ⊢
    rw [← mem_fuzzySort_score hb] at hbm
    rw [← mem_fuzzySort_score ha]
    simp only [mergeSortLe, decide_eq_true_eq] at hle
    exact le_trans hbm hle

theorem no_match_sorts_last_witness :
    (∀ it ∈ fuzzySort [mkItem ['z'], mkItem ['a']] ['a'],
      FuzzyMatches it.title ['a'] = false → it.fuzzyScore = -1) ∧
    (fuzzySort [mkItem ['z'], mkItem ['a']] ['a']).Pairwise
      (fun a b => FuzzyMatches b.title ['a'] = true → FuzzyMatches a.title ['a'] = true) :=
  no_match_sorts_last [mkItem ['z'], mkItem ['a']] ['a']

/-- C6: the sort is stable — for every score value, the output items whose
Titles score that value are exactly the input items whose Titles score
that value, in their original input order (with the cache field set). -/
theorem fuzzySort_stable (items : List Item) (test : List Char) (q : ℚ) :
    (fuzzySort items test).filter (fun it => decide (fuzzyScore it.title test = q))
      = (items.filter (fun it => decide (fuzzyScore it.title test = q))).map
          (setScore test) := by
  have hcomm : (items.map (setScore test)).filter
        (fun it => decide (fuzzyScore it.title test = q))
      = (items.filter (fun it => decide (fuzzyScore it.title test = q))).map
          (setScore test) := by
    rw [List.filter_map]
    rfl
  have hmemq : ∀ it ∈ (items.map (setScore test)).filter
      (fun it => decide (fuzzyScore it.title test = q)), it.fuzzyScore = q := by
    intro it hit
    have h1 := List.of_mem_filter hit
    have h2 := List.mem_of_mem_filter hit
    rcases List.mem_map.mp h2 with ⟨x, _, rfl⟩
    rw [decide_eq_true_eq] at h1
    exact h1
  have hpair : ((items.map (setScore test)).filter
      (fun it => decide (fuzzyScore it.title test = q))).Pairwise
      (fun a b => mergeSortLe a b = true) := by
    apply List.pairwise_of_forall_mem_list
    intro a ha b hb
    simp only [mergeSortLe, decide_eq_true_eq]
    rw [hmemq a ha, hmemq b hb]
  have hsub : ((items.map (setScore test)).filter
      (fun it => decide (fuzzyScore it.title test = q))).Sublist
      (fuzzySort items test) :=
    List.sublist_mergeSort mergeSortLe_trans mergeSortLe_total hpair
      (List.filter_sublist _)
  have hsub2 : ((items.map (setScore test)).filter
      (fun it => decide (fuzzyScore it.title test = q))).Sublist
      ((fuzzySort items test).filter
        (fun it => decide (fuzzyScore it.title test = q))) := by
    have hh := hsub.filter (fun it => decide (fuzzyScore it.title test = q))
    have hand : (fun a : Item => decide (fuzzyScore a.title test = q)
          && decide (fuzzyScore a.title test = q))
        = (fun it : Item => decide (fuzzyScore it.title test = q)) := by
      funext a
      exact Bool.and_self _
    rwa [List.filter_filter, hand] at hh
  have hlen : ((fuzzySort items test).filter
        (fun it => decide (fuzzyScore it.title test = q))).length
      = ((items.map (setScore test)).filter
        (fun it => decide (fuzzyScore it.title test = q))).length :=
    ((fuzzySort_perm_scored items test).filter _).length_eq
  rw [← hcomm]
  exact (hsub2.eq_of_length hlen.symm).symm

theorem fuzzySort_stable_witness :
    (fuzzySort [mkItem ['a', 'b'], mkItem ['a', 'b']] ['a']).filter
        (fun it => decide (fuzzyScore it.title ['a'] = 7/10))
      = ([mkItem ['a', 'b'], mkItem ['a', 'b']].filter
          (fun it => decide (fuzzyScore it.title ['a'] = 7/10))).map
          (setScore ['a']) :=
  fuzzySort_stable [mkItem ['a', 'b'], mkItem ['a', 'b']] ['a'] (7/10)

/-- C10: `fuzzySort` only reorders — its output is a permutation of the
input items with only the unexported score cache updated; every other
field (UID, Title, Subtitle, Autocomplete, Arg, Icon, mods, data) is
unchanged. -/
theorem fuzzySort_frame (items : List Item) (test : List Char) :
    (fuzzySort items test).Perm (items.map (setScore test)) ∧
    ∀ it : Item, (setScore test it).uid = it.uid
      ∧ (setScore test it).title = it.title
      ∧ (setScore test it).subtitle = it.subtitle
      ∧ (setScore test it).autocomplete = it.autocomplete
      ∧ (setScore test it).arg = it.arg
      ∧ (setScore test it).icon = it.icon
      ∧ (setScore test it).mods = it.mods
      ∧ (setScore test it).data = it.data
      ∧ (setScore test it).fuzzyScore = fuzzyScore it.title test :=
  ⟨fuzzySort_perm_scored items test,
   fun _ => ⟨rfl, rfl, rfl, rfl, rfl, rfl, rfl, rfl, rfl⟩⟩

theorem fuzzySort_frame_witness :
    (fuzzySort [mkItem ['x', 'y']] ['y']).Perm
      ([mkItem ['x', 'y']].map (setScore ['y'])) ∧
    (setScore ['y'] (mkItem ['x', 'y'])).title = (mkItem ['x', 'y']).title :=
  ⟨(fuzzySort_frame [mkItem ['x', 'y']] ['y']).1,
   ((fuzzySort_frame [mkItem ['x', 'y']] ['y']).2 (mkItem ['x', 'y'])).2.1⟩

end GoAlfred
